import Mathlib

/-!
Verification of the min/max scan module (`minmaxscan.cpp`).

The module scans a strided sequence of 32-bit IEEE floats and returns the
pair (min, max), either ignoring only NaN by accident of plain comparisons
(the "unsafe" entry point) or filtering out every non-finite value (the
"safe" entry point).  A process-wide mode (0..3) selects among a scalar
fallback, a strided/single-lane SSE2 path and a bulk 4-lane SSE2 path.

Floats are modelled denotationally: a float value is NaN, +Infinity,
-Infinity, or a finite value carried as a rational.  Signed zeros collapse
to a single zero; the module only uses IEEE comparisons, min/max selection
and bitwise lane masks whose observable behaviour at the value level is
captured exactly by this model.  The bit-level finiteness test
`cpu_isFinite` is additionally modelled on the raw 32-bit pattern.
-/

/-- Denotational model of a 32-bit IEEE float value. -/
inductive F where
  | nan : F
  | pinf : F
  | ninf : F
  | fin : ℚ → F
deriving DecidableEq, Repr

/-- Is this value NaN? -/
def F.isNaN : F → Bool
  | F.nan => true
  | _ => false

/-- Is this value finite (neither NaN nor an infinity)? -/
def F.isFinite : F → Bool
  | F.fin _ => true
  | _ => false

/-- IEEE `<` comparison: every comparison involving NaN is false. -/
def flt : F → F → Bool
  | F.nan, _ => false
  | _, F.nan => false
  | F.pinf, _ => false
  | F.ninf, F.ninf => false
  | F.ninf, _ => true
  | F.fin _, F.pinf => true
  | F.fin _, F.ninf => false
  | F.fin a, F.fin b => a < b

/-- IEEE `>` comparison: `a > b` is `b < a`. -/
def fgt (a b : F) : Bool := flt b a

/-- IEEE `==` comparison (ordered equal): false whenever NaN is involved. -/
def feq : F → F → Bool
  | F.nan, _ => false
  | _, F.nan => false
  | F.pinf, F.pinf => true
  | F.ninf, F.ninf => true
  | F.fin a, F.fin b => a = b
  | _, _ => false

/-- IEEE `<=` comparison: false whenever NaN is involved. -/
def fle : F → F → Bool
  | F.nan, _ => false
  | _, F.nan => false
  | F.pinf, F.pinf => true
  | F.pinf, _ => false
  | F.ninf, _ => true
  | F.fin _, F.pinf => true
  | F.fin _, F.ninf => false
  | F.fin a, F.fin b => a ≤ b

/-- One lane of `_mm_min_ps` / `_mm_min_ss`: `a < b ? a : b`; since NaN
comparisons are false, the second operand is returned when either is NaN. -/
def fmin1 (a b : F) : F := if flt a b then a else b

/-- One lane of `_mm_max_ps` / `_mm_max_ss`: `a > b ? a : b`. -/
def fmax1 (a b : F) : F := if fgt a b then a else b

/-- One lane of `_mm_cmpord_ps`: true iff neither operand is NaN. -/
def cmpord (a b : F) : Bool := !a.isNaN && !b.isNaN

/-- One lane of `_mm_cmpneq_ps` (NEQ_UQ): unordered or not equal. -/
def cmpneq (a b : F) : Bool := !feq a b

/-- The per-lane validity mask of the safe SSE2 paths:
`cmpord(t,t) & cmpneq(t,+inf) & cmpneq(t,-inf)`. -/
def sseIsValid (t : F) : Bool := cmpord t t && cmpneq t F.pinf && cmpneq t F.ninf

/-! ## The extended rational order used to characterise the folds

Non-NaN float values embed order-isomorphically into
`WithBot (WithTop ℚ)`, where `-Infinity = ⊥` and `+Infinity = ⊤`. -/

/-- Extended rationals: the order type of the non-NaN floats. -/
abbrev E := WithBot (WithTop ℚ)

/-- Embed a non-NaN float into the extended rationals (NaN is sent to `⊤`
arbitrarily; every use carries a non-NaN hypothesis). -/
def toE : F → E
  | F.nan => ⊤
  | F.pinf => ⊤
  | F.ninf => ⊥
  | F.fin q => ((q : WithTop ℚ) : E)

/-- Convert an extended rational back to the (non-NaN) float it denotes. -/
def fromE : E → F
  | Option.none => F.ninf
  | Option.some Option.none => F.pinf
  | Option.some (Option.some q) => F.fin q

theorem toE_fromE (e : E) : toE (fromE e) = e := by
  rcases e with _ | e
  · rfl
  · rcases e with _ | q <;> rfl

theorem fromE_toE {a : F} (h : a ≠ F.nan) : fromE (toE a) = a := by
  cases a with
  | nan => exact absurd rfl h
  | pinf => rfl
  | ninf => rfl
  | fin q => rfl

theorem fromE_ne_nan (e : E) : fromE e ≠ F.nan := by
  rcases e with _ | e
  · exact fun h => F.noConfusion h
  · rcases e with _ | q <;> exact fun h => F.noConfusion h

theorem fromE_not_isNaN (e : E) : (fromE e).isNaN = false := by
  rcases e with _ | e
  · rfl
  · rcases e with _ | q <;> rfl

/-- On non-NaN operands, `flt` decides the strict order of `E`. -/
theorem flt_iff {a b : F} (ha : a ≠ F.nan) (hb : b ≠ F.nan) :
    flt a b = true ↔ toE a < toE b := by
  cases a with
  | nan => exact absurd rfl ha
  | pinf =>
    cases b with
    | nan => exact absurd rfl hb
    | pinf => simp [flt, toE]
    | ninf => simp [flt, toE]
    | fin q => simp [flt, toE]
  | ninf =>
    cases b with
    | nan => exact absurd rfl hb
    | pinf => simp [flt, toE]
    | ninf => simp [flt, toE]
    | fin q =>
      simp only [flt, toE, true_iff]
      exact WithBot.bot_lt_coe _
  | fin p =>
    cases b with
    | nan => exact absurd rfl hb
    | pinf =>
      simp only [flt, toE, true_iff]
      exact WithBot.coe_lt_coe.mpr (WithTop.coe_lt_top p)
    | ninf => simp [flt, toE]
    | fin q =>
      simp only [flt, toE, decide_eq_true_eq, WithBot.coe_lt_coe, WithTop.coe_lt_coe]

/-- On non-NaN operands, `fmin1` is the order minimum, transported by `fromE`. -/
theorem fmin1_eq {a b : F} (ha : a ≠ F.nan) (hb : b ≠ F.nan) :
    fmin1 a b = fromE (min (toE a) (toE b)) := by
  unfold fmin1
  by_cases h : flt a b = true
  · rw [if_pos h, min_eq_left (le_of_lt ((flt_iff ha hb).mp h)), fromE_toE ha]
  · rw [if_neg h]
    have h2 : ¬ toE a < toE b := fun hc => h ((flt_iff ha hb).mpr hc)
    rw [min_eq_right (le_of_not_lt h2), fromE_toE hb]

/-- On non-NaN operands, `fmax1` is the order maximum, transported by `fromE`. -/
theorem fmax1_eq {a b : F} (ha : a ≠ F.nan) (hb : b ≠ F.nan) :
    fmax1 a b = fromE (max (toE a) (toE b)) := by
  unfold fmax1 fgt
  by_cases h : flt b a = true
  · rw [if_pos h, max_eq_left (le_of_lt ((flt_iff hb ha).mp h)), fromE_toE ha]
  · rw [if_neg h]
    have h2 : ¬ toE b < toE a := fun hc => h ((flt_iff hb ha).mpr hc)
    rw [max_eq_right (le_of_not_lt h2), fromE_toE hb]

/-- On non-NaN operands, `fle` decides the order of `E`. -/
theorem fle_iff {a b : F} (ha : a ≠ F.nan) (hb : b ≠ F.nan) :
    fle a b = true ↔ toE a ≤ toE b := by
  cases a with
  | nan => exact absurd rfl ha
  | pinf =>
    cases b with
    | nan => exact absurd rfl hb
    | pinf => simp [fle, toE]
    | ninf => simp [fle, toE]
    | fin q => simp [fle, toE, top_le_iff]
  | ninf =>
    cases b with
    | nan => exact absurd rfl hb
    | pinf => simp [fle, toE]
    | ninf => simp [fle, toE]
    | fin q => simp [fle, toE]
  | fin p =>
    cases b with
    | nan => exact absurd rfl hb
    | pinf => simp [fle, toE]
    | ninf => simp [fle, toE, le_bot_iff]
    | fin q =>
      simp only [fle, toE, decide_eq_true_eq, WithBot.coe_le_coe, WithTop.coe_le_coe]

/-- `sseIsValid` is exactly the finiteness test. -/
theorem sseIsValid_eq (t : F) : sseIsValid t = t.isFinite := by
  cases t with
  | nan => rfl
  | pinf => rfl
  | ninf => rfl
  | fin q => simp [sseIsValid, cmpord, cmpneq, feq, F.isNaN, F.isFinite]

theorem isFinite_ne_nan {t : F} (h : t.isFinite = true) : t ≠ F.nan := by
  cases t <;> simp_all [F.isFinite]

/-! ## The scan routines, translated from `minmaxscan.cpp`

Buffers are modelled as total functions `ℕ → F`; a call visits the
elements at offsets `0, stride, …, (size-1)*stride`. -/

/-- The list of elements a call visits: `values[i*stride]` for `i < size`. -/
def visited (values : ℕ → F) (size stride : ℕ) : List F :=
  (List.range size).map fun i => values (i * stride)

/-- `cpu_stridedMinMax`: scalar loop, accumulators seeded at
`(+Infinity, -Infinity)`, updated by the plain comparisons
`values[index] < minValue` / `values[index] > maxValue`. -/
def cpu_stridedMinMax (values : ℕ → F) (size stride : ℕ) : F × F :=
  (visited values size stride).foldl
    (fun acc v => (if flt v acc.1 then v else acc.1, if fgt v acc.2 then v else acc.2))
    (F.pinf, F.ninf)

/-- `cpu_stridedMinMaxSafe`: like `cpu_stridedMinMax` but each element is
first passed through the finiteness test `cpu_isFinite` (whose value-level
meaning is `F.isFinite`; the bit-level implementation is verified
separately on raw 32-bit patterns). -/
def cpu_stridedMinMaxSafe (values : ℕ → F) (size stride : ℕ) : F × F :=
  (visited values size stride).foldl
    (fun acc v =>
      if v.isFinite then
        (if flt v acc.1 then v else acc.1, if fgt v acc.2 then v else acc.2)
      else acc)
    (F.pinf, F.ninf)

/-- `sse2_stridedMinMax`: single-lane SSE2 loop;
`minVal = _mm_min_ss(minVal, temp)`, `maxVal = _mm_max_ss(maxVal, temp)`.
Only lane 0 is ever combined and stored, so the model tracks lane 0. -/
def sse2_stridedMinMax (values : ℕ → F) (size stride : ℕ) : F × F :=
  (visited values size stride).foldl
    (fun acc v => (fmin1 acc.1 v, fmax1 acc.2 v))
    (F.pinf, F.ninf)

/-- `sse2_stridedMinMaxSafe`: single-lane SSE2 loop with the validity mask;
`masked = (isValid & temp) | (~isValid & running)` selects the candidate
when valid and the running value otherwise, then
`minVal = _mm_min_ss(minVal, maskedMinTemp)` and likewise for max. -/
def sse2_stridedMinMaxSafe (values : ℕ → F) (size stride : ℕ) : F × F :=
  (visited values size stride).foldl
    (fun acc v =>
      (fmin1 acc.1 (if sseIsValid v then v else acc.1),
       fmax1 acc.2 (if sseIsValid v then v else acc.2)))
    (F.pinf, F.ninf)

/-- A 128-bit SSE2 register holding 4 float lanes. -/
structure Vec4 where
  x0 : F
  x1 : F
  x2 : F
  x3 : F
deriving DecidableEq, Repr

/-- `_mm_loadu_ps(&values[i])`: four consecutive lanes. -/
def loadu (values : ℕ → F) (i : ℕ) : Vec4 :=
  ⟨values i, values (i + 1), values (i + 2), values (i + 3)⟩

/-- `_mm_min_ps(a, b)` lanewise. -/
def min_ps (a b : Vec4) : Vec4 :=
  ⟨fmin1 a.x0 b.x0, fmin1 a.x1 b.x1, fmin1 a.x2 b.x2, fmin1 a.x3 b.x3⟩

/-- `_mm_max_ps(a, b)` lanewise. -/
def max_ps (a b : Vec4) : Vec4 :=
  ⟨fmax1 a.x0 b.x0, fmax1 a.x1 b.x1, fmax1 a.x2 b.x2, fmax1 a.x3 b.x3⟩

/-- `_mm_shuffle_ps(v, v, _MM_SHUFFLE(2,1,0,3))`: lanes `(v3, v0, v1, v2)`. -/
def shufRotA (v : Vec4) : Vec4 := ⟨v.x3, v.x0, v.x1, v.x2⟩

/-- `_mm_shuffle_ps(v, v, _MM_SHUFFLE(1,0,3,2))`: lanes `(v2, v3, v0, v1)`. -/
def shufRotB (v : Vec4) : Vec4 := ⟨v.x2, v.x3, v.x0, v.x1⟩

/-- `sse2_reduceMinMax`: two shuffle-and-combine rounds collapse the 4-wide
min/max vectors; lane 0 of the results is stored out. -/
def sse2_reduceMinMax (minVec maxVec : Vec4) : F × F :=
  let m1 := min_ps minVec (shufRotA minVec)
  let m2 := min_ps m1 (shufRotB m1)
  let n1 := max_ps maxVec (shufRotA maxVec)
  let n2 := max_ps n1 (shufRotB n1)
  (m2.x0, n2.x0)

/-- The bulk loop of `sse2_vectorMinMax` after `n` chunks: seeded with the
initial load of `values[0..3]`, then for `i = 4, 8, …` combines
`minVals = _mm_min_ps(temp, minVals)` and `maxVals = _mm_max_ps(temp, maxVals)`. -/
def unsafeChunks (values : ℕ → F) : ℕ → Vec4 × Vec4
  | 0 => (loadu values 0, loadu values 0)
  | n + 1 =>
    let acc := unsafeChunks values n
    let t := loadu values (4 * (n + 1))
    (min_ps t acc.1, max_ps t acc.2)

/-- One iteration of the unsafe remainder loop:
`temp = _mm_set_ss(values[i]); minVals = _mm_min_ss(minVals, temp);
maxVals = _mm_max_ss(maxVals, temp)` — only lane 0 changes. -/
def unsafeRemStep (values : ℕ → F) (a : Vec4 × Vec4) (i : ℕ) : Vec4 × Vec4 :=
  ({ a.1 with x0 := fmin1 a.1.x0 (values i) },
   { a.2 with x0 := fmax1 a.2.x0 (values i) })

/-- `sse2_vectorMinMax`: contiguous bulk path (requires `size ≥ 4`):
unrolled 4-wide loop over `unrollSize = (size/4)*4` elements, single-lane
remainder loop (`_mm_min_ss(minVals, temp)` touches lane 0 only), then the
horizontal reduction. -/
def sse2_vectorMinMax (values : ℕ → F) (size : ℕ) : F × F :=
  let nChunks := size / 4
  let unrollSize := nChunks * 4
  let acc := unsafeChunks values (nChunks - 1)
  let acc2 := (List.range' unrollSize (size - unrollSize)).foldl (unsafeRemStep values) acc
  sse2_reduceMinMax acc2.1 acc2.2

/-- The bulk loop of `sse2_vectorMinMaxSafe` after `n` chunks: accumulators
seeded at `(+Infinity, -Infinity)` in all lanes; each chunk is masked
lanewise by the validity test, then combined with
`minVals = _mm_min_ps(maskedMinTemp, minVals)` (and max alike). -/
def safeChunks (values : ℕ → F) : ℕ → Vec4 × Vec4
  | 0 => (⟨F.pinf, F.pinf, F.pinf, F.pinf⟩, ⟨F.ninf, F.ninf, F.ninf, F.ninf⟩)
  | n + 1 =>
    let acc := safeChunks values n
    let t := loadu values (4 * n)
    let mMin : Vec4 := ⟨if sseIsValid t.x0 then t.x0 else acc.1.x0,
                        if sseIsValid t.x1 then t.x1 else acc.1.x1,
                        if sseIsValid t.x2 then t.x2 else acc.1.x2,
                        if sseIsValid t.x3 then t.x3 else acc.1.x3⟩
    let mMax : Vec4 := ⟨if sseIsValid t.x0 then t.x0 else acc.2.x0,
                        if sseIsValid t.x1 then t.x1 else acc.2.x1,
                        if sseIsValid t.x2 then t.x2 else acc.2.x2,
                        if sseIsValid t.x3 then t.x3 else acc.2.x3⟩
    (min_ps mMin acc.1, max_ps mMax acc.2)

/-- One iteration of the safe remainder loop: the single-lane masked
combine `minVals = _mm_min_ss(minVals, maskedMinTemp)` (and max alike) —
only lane 0 changes. -/
def safeRemStep (values : ℕ → F) (a : Vec4 × Vec4) (i : ℕ) : Vec4 × Vec4 :=
  ({ a.1 with x0 := fmin1 a.1.x0 (if sseIsValid (values i) then values i else a.1.x0) },
   { a.2 with x0 := fmax1 a.2.x0 (if sseIsValid (values i) then values i else a.2.x0) })

/-- `sse2_vectorMinMaxSafe`: NaN-safe contiguous bulk path: masked 4-wide
loop over `unrollSize` elements, masked single-lane remainder loop
(`_mm_min_ss(minVals, maskedMinTemp)`), then the horizontal reduction. -/
def sse2_vectorMinMaxSafe (values : ℕ → F) (size : ℕ) : F × F :=
  let nChunks := size / 4
  let unrollSize := nChunks * 4
  let acc := safeChunks values nChunks
  let acc2 := (List.range' unrollSize (size - unrollSize)).foldl (safeRemStep values) acc
  sse2_reduceMinMax acc2.1 acc2.2

/-! ## Dispatch (`MinMaxScan::scanArray`, `MinMaxScan::unsafeScanArray`)

The process-wide override `hack_sse2_mode()` is modelled as the parameter
`mode`; the selection conditions are copied from the source. -/

/-- Which implementation the dispatch selects. -/
inductive ScanPath where
  | scalar : ScanPath
  | strided : ScanPath
  | bulk : ScanPath
deriving DecidableEq, Repr

/-- The dispatch condition shared by both entry points:
`mode == 2 || mode == 3` selects the scalar fallback,
`mode == 1 || stride != 1 || size <= 8` the strided/single-lane path,
otherwise the bulk vector path. -/
def dispatchPath (mode : ℤ) (size stride : ℕ) : ScanPath :=
  if mode = 2 ∨ mode = 3 then ScanPath.scalar
  else if mode = 1 ∨ stride ≠ 1 ∨ size ≤ 8 then ScanPath.strided
  else ScanPath.bulk

/-- `MinMaxScan::unsafeScanArray` (SSE2 build). -/
def unsafeScanArray (mode : ℤ) (values : ℕ → F) (size stride : ℕ) : F × F :=
  match dispatchPath mode size stride with
  | ScanPath.scalar => cpu_stridedMinMax values size stride
  | ScanPath.strided => sse2_stridedMinMax values size stride
  | ScanPath.bulk => sse2_vectorMinMax values size

/-- `MinMaxScan::scanArray` (SSE2 build). -/
def scanArray (mode : ℤ) (values : ℕ → F) (size stride : ℕ) : F × F :=
  match dispatchPath mode size stride with
  | ScanPath.scalar => cpu_stridedMinMaxSafe values size stride
  | ScanPath.strided => sse2_stridedMinMaxSafe values size stride
  | ScanPath.bulk => sse2_vectorMinMaxSafe values size

/-- `MinMaxScan::has_sse2` (SSE2 build). -/
def has_sse2 (mode : ℤ) : Bool := mode ≠ 2 && mode ≠ 3

/-- `MinMaxScan::use_sse2` (SSE2 build). -/
def use_sse2 (mode : ℤ) : Bool := mode ≠ 3

/-! ## Specification-side definitions

The claims speak of "the minimum / maximum of the finite (or non-NaN)
visited elements, or the sentinel pair when there are none".  These are
expressed as a min/max fold over the filtered element list in the extended
rational order, seeded at `⊤` / `⊥` and transported back by `fromE` (so an
empty filtered list yields exactly `(+Infinity, -Infinity)`). -/

/-- Minimum of a list of (non-NaN) floats in the extended order, `⊤` if empty. -/
def listInfE (l : List F) : E := l.foldl (fun e v => min e (toE v)) ⊤

/-- Maximum of a list of (non-NaN) floats in the extended order, `⊥` if empty. -/
def listSupE (l : List F) : E := l.foldl (fun e v => max e (toE v)) ⊥

/-- The finite elements of a list, in order. -/
def finitePart (l : List F) : List F := l.filter F.isFinite

/-- The non-NaN elements of a list, in order. -/
def notNaNPart (l : List F) : List F := l.filter fun v => !v.isNaN

/-- The (min, max) pair over exactly the finite elements of `l`;
`(+Infinity, -Infinity)` when no finite element exists. -/
def specSafePair (l : List F) : F × F :=
  (fromE (listInfE (finitePart l)), fromE (listSupE (finitePart l)))

/-- The (min, max) pair over exactly the non-NaN elements of `l` (the
infinities participate); `(+Infinity, -Infinity)` when every element is NaN. -/
def specUnsafePair (l : List F) : F × F :=
  (fromE (listInfE (notNaNPart l)), fromE (listSupE (notNaNPart l)))

/-! ## Fold machinery in the extended order -/

/-- Min-fold of `g` over a list, seeded at `⊤`. -/
def ginfList (g : F → E) (l : List F) : E := l.foldl (fun e v => min e (g v)) ⊤

/-- Max-fold of `g` over a list, seeded at `⊥`. -/
def gsupList (g : F → E) (l : List F) : E := l.foldl (fun e v => max e (g v)) ⊥

theorem ginf_acc (g : F → E) (l : List F) (a : E) :
    l.foldl (fun e v => min e (g v)) a = min a (ginfList g l) := by
  induction l generalizing a with
  | nil => simp [ginfList, min_eq_left le_top]
  | cons v l ih =>
    simp only [List.foldl_cons, ginfList]
    rw [ih (min a (g v)), ih (min ⊤ (g v)), min_eq_right le_top, min_assoc]

theorem gsup_acc (g : F → E) (l : List F) (a : E) :
    l.foldl (fun e v => max e (g v)) a = max a (gsupList g l) := by
  induction l generalizing a with
  | nil => simp [gsupList, max_eq_left bot_le]
  | cons v l ih =>
    simp only [List.foldl_cons, gsupList]
    rw [ih (max a (g v)), ih (max ⊥ (g v)), max_eq_right bot_le, max_assoc]

theorem ginf_cons (g : F → E) (v : F) (l : List F) :
    ginfList g (v :: l) = min (g v) (ginfList g l) := by
  simp only [ginfList, List.foldl_cons]
  rw [ginf_acc g l (min ⊤ (g v)), min_eq_right le_top]
  rfl

theorem gsup_cons (g : F → E) (v : F) (l : List F) :
    gsupList g (v :: l) = max (g v) (gsupList g l) := by
  simp only [gsupList, List.foldl_cons]
  rw [gsup_acc g l (max ⊥ (g v)), max_eq_right bot_le]
  rfl

theorem ginf_append (g : F → E) (l₁ l₂ : List F) :
    ginfList g (l₁ ++ l₂) = min (ginfList g l₁) (ginfList g l₂) := by
  simp only [ginfList, List.foldl_append]
  rw [ginf_acc g l₂ (List.foldl (fun e v => min e (g v)) ⊤ l₁)]
  rfl

theorem gsup_append (g : F → E) (l₁ l₂ : List F) :
    gsupList g (l₁ ++ l₂) = max (gsupList g l₁) (gsupList g l₂) := by
  simp only [gsupList, List.foldl_append]
  rw [gsup_acc g l₂ (List.foldl (fun e v => max e (g v)) ⊥ l₁)]
  rfl

/-- Dropped elements contribute `⊤`, which is the identity of the min-fold:
the keep-masked fold is the fold over the filtered list. -/
theorem ginf_keep (keep : F → Bool) (l : List F) :
    ginfList (fun v => if keep v then toE v else ⊤) l = ginfList toE (l.filter keep) := by
  induction l with
  | nil => rfl
  | cons v l ih =>
    rw [ginf_cons]
    by_cases h : keep v
    · rw [List.filter_cons_of_pos h, ginf_cons, if_pos h, ih]
    · rw [List.filter_cons_of_neg h, if_neg h, min_eq_right le_top, ih]

theorem gsup_keep (keep : F → Bool) (l : List F) :
    gsupList (fun v => if keep v then toE v else ⊥) l = gsupList toE (l.filter keep) := by
  induction l with
  | nil => rfl
  | cons v l ih =>
    rw [gsup_cons]
    by_cases h : keep v
    · rw [List.filter_cons_of_pos h, gsup_cons, if_pos h, ih]
    · rw [List.filter_cons_of_neg h, if_neg h, max_eq_right bot_le, ih]

theorem ginf_le_of_mem (g : F → E) {v : F} {l : List F} (h : v ∈ l) :
    ginfList g l ≤ g v := by
  induction l with
  | nil => cases h
  | cons w l ih =>
    rw [ginf_cons]
    rcases List.mem_cons.mp h with h1 | h1
    · subst h1; exact min_le_left _ _
    · exact le_trans (min_le_right _ _) (ih h1)

theorem le_gsup_of_mem (g : F → E) {v : F} {l : List F} (h : v ∈ l) :
    g v ≤ gsupList g l := by
  induction l with
  | nil => cases h
  | cons w l ih =>
    rw [gsup_cons]
    rcases List.mem_cons.mp h with h1 | h1
    · subst h1; exact le_max_left _ _
    · exact le_trans (ih h1) (le_max_right _ _)

theorem listInfE_eq (l : List F) : listInfE l = ginfList toE l := rfl

theorem listSupE_eq (l : List F) : listSupE l = gsupList toE l := rfl

/-! ## Characterisation of the scalar and strided paths -/

theorem flt_nan_left (a : F) : flt F.nan a = false := by cases a <;> rfl

theorem flt_nan_right (a : F) : flt a F.nan = false := by cases a <;> rfl

theorem fmin1_self (a : F) : fmin1 a a = a := by unfold fmin1; exact ite_self a

theorem fmax1_self (a : F) : fmax1 a a = a := by unfold fmax1; exact ite_self a

/-- Workhorse: a fold that min/max-combines exactly the elements passing
`keep` (all of them non-NaN) computes the min/max over the filtered list. -/
theorem keepFold_eq (keep : F → Bool) (hk : ∀ v, keep v = true → v ≠ F.nan)
    (l : List F) : ∀ (a b : F), a ≠ F.nan → b ≠ F.nan →
    l.foldl (fun acc v => if keep v then (fmin1 v acc.1, fmax1 v acc.2) else acc) (a, b)
      = (fromE (min (toE a) (ginfList toE (l.filter keep))),
         fromE (max (toE b) (gsupList toE (l.filter keep)))) := by
  induction l with
  | nil =>
    intro a b ha hb
    simp only [List.foldl_nil, List.filter_nil]
    rw [show ginfList toE [] = ⊤ from rfl, show gsupList toE [] = ⊥ from rfl,
        min_eq_left le_top, max_eq_left bot_le, fromE_toE ha, fromE_toE hb]
  | cons v l ih =>
    intro a b ha hb
    simp only [List.foldl_cons]
    by_cases h : keep v
    · have hv : v ≠ F.nan := hk v h
      rw [if_pos h, fmin1_eq hv ha, fmax1_eq hv hb,
          ih _ _ (fromE_ne_nan _) (fromE_ne_nan _),
          List.filter_cons_of_pos h, ginf_cons, gsup_cons,
          toE_fromE, toE_fromE, min_assoc, min_left_comm, max_assoc, max_left_comm]
    · rw [if_neg h, ih _ _ ha hb, List.filter_cons_of_neg h]

/-- `cpu_stridedMinMaxSafe` computes the min/max over exactly the finite
visited elements (sentinel pair when there are none). -/
theorem cpu_stridedMinMaxSafe_spec (values : ℕ → F) (size stride : ℕ) :
    cpu_stridedMinMaxSafe values size stride = specSafePair (visited values size stride) := by
  have h := keepFold_eq F.isFinite (fun v hv => isFinite_ne_nan hv)
    (visited values size stride) F.pinf F.ninf
    (fun hc => F.noConfusion hc) (fun hc => F.noConfusion hc)
  rw [show cpu_stridedMinMaxSafe values size stride
      = (visited values size stride).foldl
          (fun acc v => if F.isFinite v then (fmin1 v acc.1, fmax1 v acc.2) else acc)
          (F.pinf, F.ninf) from rfl, h]
  unfold specSafePair finitePart
  rw [listInfE_eq, listSupE_eq,
      show toE F.pinf = ⊤ from rfl, show toE F.ninf = ⊥ from rfl,
      min_eq_right le_top, max_eq_right bot_le]

/-- `cpu_stridedMinMax` computes the min/max over exactly the non-NaN
visited elements: NaN never changes the accumulators, infinities participate. -/
theorem cpu_stridedMinMax_spec (values : ℕ → F) (size stride : ℕ) :
    cpu_stridedMinMax values size stride = specUnsafePair (visited values size stride) := by
  have hext : cpu_stridedMinMax values size stride
      = (visited values size stride).foldl
          (fun acc v => if !v.isNaN then (fmin1 v acc.1, fmax1 v acc.2) else acc)
          (F.pinf, F.ninf) := by
    unfold cpu_stridedMinMax
    apply List.foldl_ext
    intro acc v _
    cases v with
    | nan => simp [fmin1, fmax1, fgt, flt_nan_left, flt_nan_right, F.isNaN]
    | pinf => simp [fmin1, fmax1, F.isNaN]
    | ninf => simp [fmin1, fmax1, F.isNaN]
    | fin q => simp [fmin1, fmax1, F.isNaN]
  rw [hext, keepFold_eq (fun v => !v.isNaN)
    (fun v hv => by cases v <;> simp_all [F.isNaN])
    (visited values size stride) F.pinf F.ninf
    (fun hc => F.noConfusion hc) (fun hc => F.noConfusion hc)]
  unfold specUnsafePair notNaNPart
  rw [listInfE_eq, listSupE_eq,
      show toE F.pinf = ⊤ from rfl, show toE F.ninf = ⊥ from rfl,
      min_eq_right le_top, max_eq_right bot_le]

/-- On NaN-free data the single-lane SSE2 fold agrees with the scalar fold
(the argument order of the combines differs, but min/max are commutative
away from NaN). -/
theorem sseUnsafeFold_eq (l : List F) : (∀ v ∈ l, v ≠ F.nan) →
    ∀ (a b : F), a ≠ F.nan → b ≠ F.nan →
    l.foldl (fun acc v => (fmin1 acc.1 v, fmax1 acc.2 v)) (a, b)
      = l.foldl (fun acc v => (fmin1 v acc.1, fmax1 v acc.2)) (a, b) := by
  induction l with
  | nil => intro _ a b _ _; rfl
  | cons v l ih =>
    intro hl a b ha hb
    have hv : v ≠ F.nan := hl v (List.mem_cons_self v l)
    have hl2 : ∀ w ∈ l, w ≠ F.nan := fun w hw => hl w (List.mem_cons_of_mem v hw)
    simp only [List.foldl_cons]
    rw [fmin1_eq ha hv, fmax1_eq hb hv, fmin1_eq hv ha, fmax1_eq hv hb,
        min_comm (toE v) (toE a), max_comm (toE v) (toE b)]
    exact ih hl2 _ _ (fromE_ne_nan _) (fromE_ne_nan _)

/-- `sse2_stridedMinMax` agrees with the scalar fallback on NaN-free data. -/
theorem sse2_stridedMinMax_spec (values : ℕ → F) (size stride : ℕ)
    (hnn : ∀ v ∈ visited values size stride, v ≠ F.nan) :
    sse2_stridedMinMax values size stride = specUnsafePair (visited values size stride) := by
  unfold sse2_stridedMinMax
  rw [sseUnsafeFold_eq (visited values size stride) hnn F.pinf F.ninf
        (fun hc => F.noConfusion hc) (fun hc => F.noConfusion hc)]
  have hext : (visited values size stride).foldl
      (fun acc v => (fmin1 v acc.1, fmax1 v acc.2)) (F.pinf, F.ninf)
      = cpu_stridedMinMax values size stride := by
    unfold cpu_stridedMinMax
    rfl
  rw [hext, cpu_stridedMinMax_spec]

/-- The masked single-lane SSE2 fold agrees with the scalar safe fold. -/
theorem sseSafeFold_eq (l : List F) : ∀ (a b : F), a ≠ F.nan → b ≠ F.nan →
    l.foldl (fun acc v =>
        (fmin1 acc.1 (if sseIsValid v then v else acc.1),
         fmax1 acc.2 (if sseIsValid v then v else acc.2))) (a, b)
      = l.foldl (fun acc v => if F.isFinite v then (fmin1 v acc.1, fmax1 v acc.2) else acc) (a, b) := by
  induction l with
  | nil => intro a b _ _; rfl
  | cons v l ih =>
    intro a b ha hb
    simp only [List.foldl_cons]
    by_cases h : sseIsValid v = true
    · have hf : v.isFinite = true := by rw [← sseIsValid_eq]; exact h
      have hv : v ≠ F.nan := isFinite_ne_nan hf
      rw [if_pos h, if_pos h, if_pos hf, fmin1_eq ha hv, fmax1_eq hb hv,
          fmin1_eq hv ha, fmax1_eq hv hb,
          min_comm (toE v) (toE a), max_comm (toE v) (toE b)]
      exact ih _ _ (fromE_ne_nan _) (fromE_ne_nan _)
    · have hf : ¬ v.isFinite = true := by rw [← sseIsValid_eq]; exact h
      rw [if_neg h, if_neg h, if_neg hf, fmin1_self, fmax1_self]
      exact ih _ _ ha hb

/-- `sse2_stridedMinMaxSafe` computes the min/max over exactly the finite
visited elements. -/
theorem sse2_stridedMinMaxSafe_spec (values : ℕ → F) (size stride : ℕ) :
    sse2_stridedMinMaxSafe values size stride = specSafePair (visited values size stride) := by
  unfold sse2_stridedMinMaxSafe
  rw [sseSafeFold_eq (visited values size stride) F.pinf F.ninf
        (fun hc => F.noConfusion hc) (fun hc => F.noConfusion hc)]
  have hext : (visited values size stride).foldl
      (fun acc v => if F.isFinite v then (fmin1 v acc.1, fmax1 v acc.2) else acc)
      (F.pinf, F.ninf) = cpu_stridedMinMaxSafe values size stride := rfl
  rw [hext, cpu_stridedMinMaxSafe_spec]

/-! ## Characterisation of the bulk vector path -/

/-- No lane of the register is NaN. -/
def Vec4.noNaN (v : Vec4) : Prop :=
  v.x0 ≠ F.nan ∧ v.x1 ≠ F.nan ∧ v.x2 ≠ F.nan ∧ v.x3 ≠ F.nan

/-- The value lane 0 holds after the min reduction rounds, at the `E` level. -/
def vminE (v : Vec4) : E := min (min (toE v.x0) (toE v.x3)) (min (toE v.x2) (toE v.x1))

/-- The value lane 0 holds after the max reduction rounds, at the `E` level. -/
def vmaxE (v : Vec4) : E := max (max (toE v.x0) (toE v.x3)) (max (toE v.x2) (toE v.x1))

/-- The shuffle-based horizontal reduction computes the min/max of the four
lanes (for NaN-free registers). -/
theorem sse2_reduceMinMax_eq (a b : Vec4) (ha : a.noNaN) (hb : b.noNaN) :
    sse2_reduceMinMax a b = (fromE (vminE a), fromE (vmaxE b)) := by
  obtain ⟨ha0, ha1, ha2, ha3⟩ := ha
  obtain ⟨hb0, hb1, hb2, hb3⟩ := hb
  show (fmin1 (fmin1 a.x0 a.x3) (fmin1 a.x2 a.x1),
        fmax1 (fmax1 b.x0 b.x3) (fmax1 b.x2 b.x1)) = _
  rw [fmin1_eq ha0 ha3, fmin1_eq ha2 ha1,
      fmin1_eq (fromE_ne_nan _) (fromE_ne_nan _), toE_fromE, toE_fromE,
      fmax1_eq hb0 hb3, fmax1_eq hb2 hb1,
      fmax1_eq (fromE_ne_nan _) (fromE_ne_nan _), toE_fromE, toE_fromE]
  rfl

/-- Contribution of one element to the safe min accumulator: its value if
finite, the identity `⊤` otherwise. -/
def gSafeMin (v : F) : E := if v.isFinite then toE v else ⊤

/-- Contribution of one element to the safe max accumulator. -/
def gSafeMax (v : F) : E := if v.isFinite then toE v else ⊥

theorem ginf_gSafeMin (l : List F) :
    ginfList gSafeMin l = ginfList toE (finitePart l) := ginf_keep F.isFinite l

theorem gsup_gSafeMax (l : List F) :
    gsupList gSafeMax l = gsupList toE (finitePart l) := gsup_keep F.isFinite l

/-- One lane of the safe combine, bulk order (`_mm_min_ps(masked, acc)`). -/
theorem safeLaneMin_eq (t w : F) (hw : w ≠ F.nan) :
    fmin1 (if sseIsValid t then t else w) w = fromE (min (gSafeMin t) (toE w)) := by
  rw [sseIsValid_eq]
  by_cases h : t.isFinite = true
  · simp only [if_pos h, gSafeMin]
    rw [fmin1_eq (isFinite_ne_nan h) hw]
  · simp only [if_neg h, gSafeMin]
    rw [fmin1_self, min_eq_right le_top, fromE_toE hw]

theorem safeLaneMax_eq (t w : F) (hw : w ≠ F.nan) :
    fmax1 (if sseIsValid t then t else w) w = fromE (max (gSafeMax t) (toE w)) := by
  rw [sseIsValid_eq]
  by_cases h : t.isFinite = true
  · simp only [if_pos h, gSafeMax]
    rw [fmax1_eq (isFinite_ne_nan h) hw]
  · simp only [if_neg h, gSafeMax]
    rw [fmax1_self, max_eq_right bot_le, fromE_toE hw]

/-- One lane of the safe combine, remainder order (`_mm_min_ss(acc, masked)`). -/
theorem safeLaneMin_eq2 (t w : F) (hw : w ≠ F.nan) :
    fmin1 w (if sseIsValid t then t else w) = fromE (min (gSafeMin t) (toE w)) := by
  rw [sseIsValid_eq]
  by_cases h : t.isFinite = true
  · simp only [if_pos h, gSafeMin]
    rw [fmin1_eq hw (isFinite_ne_nan h), min_comm]
  · simp only [if_neg h, gSafeMin]
    rw [fmin1_self, min_eq_right le_top, fromE_toE hw]

theorem safeLaneMax_eq2 (t w : F) (hw : w ≠ F.nan) :
    fmax1 w (if sseIsValid t then t else w) = fromE (max (gSafeMax t) (toE w)) := by
  rw [sseIsValid_eq]
  by_cases h : t.isFinite = true
  · simp only [if_pos h, gSafeMax]
    rw [fmax1_eq hw (isFinite_ne_nan h), max_comm]
  · simp only [if_neg h, gSafeMax]
    rw [fmax1_self, max_eq_right bot_le, fromE_toE hw]

theorem map_range_four (values : ℕ → F) (s : ℕ) :
    (((List.range 4).map (fun i => s + i)).map values)
      = [values s, values (s + 1), values (s + 2), values (s + 3)] := by
  simp [List.range_succ]

theorem ginf_four (g : F → E) (a b c d : F) :
    ginfList g [a, b, c, d] = min (min (g a) (g d)) (min (g c) (g b)) := by
  rw [ginf_cons, ginf_cons, ginf_cons, ginf_cons,
      show ginfList g [] = ⊤ from rfl, min_eq_left le_top]
  simp [min_assoc, min_comm, min_left_comm]

theorem gsup_four (g : F → E) (a b c d : F) :
    gsupList g [a, b, c, d] = max (max (g a) (g d)) (max (g c) (g b)) := by
  rw [gsup_cons, gsup_cons, gsup_cons, gsup_cons,
      show gsupList g [] = ⊥ from rfl, max_eq_left bot_le]
  simp [max_assoc, max_comm, max_left_comm]

set_option maxHeartbeats 1000000 in
/-- Invariant of the safe bulk loop: after `n` chunks the four min (max)
lanes are NaN-free and reduce to the safe min (max) over elements `0..4n-1`. -/
theorem safeChunks_spec (values : ℕ → F) : ∀ n : ℕ,
    (safeChunks values n).1.noNaN ∧ (safeChunks values n).2.noNaN ∧
    vminE (safeChunks values n).1 = ginfList gSafeMin ((List.range (4 * n)).map values) ∧
    vmaxE (safeChunks values n).2 = gsupList gSafeMax ((List.range (4 * n)).map values) := by
  intro n
  induction n with
  | zero =>
    refine ⟨⟨?_, ?_, ?_, ?_⟩, ⟨?_, ?_, ?_, ?_⟩, ?_, ?_⟩ <;>
      simp [safeChunks, Vec4.noNaN, vminE, vmaxE, toE, ginfList, gsupList]
  | succ n ih =>
    obtain ⟨⟨hm0, hm1, hm2, hm3⟩, ⟨hn0, hn1, hn2, hn3⟩, hminE, hmaxE⟩ := ih
    simp only [safeChunks, min_ps, max_ps, loadu]
    rw [safeLaneMin_eq _ _ hm0, safeLaneMin_eq _ _ hm1, safeLaneMin_eq _ _ hm2,
        safeLaneMin_eq _ _ hm3, safeLaneMax_eq _ _ hn0, safeLaneMax_eq _ _ hn1,
        safeLaneMax_eq _ _ hn2, safeLaneMax_eq _ _ hn3]
    refine ⟨⟨fromE_ne_nan _, fromE_ne_nan _, fromE_ne_nan _, fromE_ne_nan _⟩,
            ⟨fromE_ne_nan _, fromE_ne_nan _, fromE_ne_nan _, fromE_ne_nan _⟩, ?_, ?_⟩
    · simp only [vminE, toE_fromE]
      rw [Nat.mul_succ, List.range_add, List.map_append, ginf_append,
          map_range_four, ginf_four, ← hminE]
      simp only [vminE]
      simp [min_assoc, min_comm, min_left_comm]
    · simp only [vmaxE, toE_fromE]
      rw [Nat.mul_succ, List.range_add, List.map_append, gsup_append,
          map_range_four, gsup_four, ← hmaxE]
      simp only [vmaxE]
      simp [max_assoc, max_comm, max_left_comm]

set_option maxHeartbeats 1000000 in
/-- The safe remainder loop folds each element into lane 0; at the `E`
level it prepends the elements' safe contributions to the reduced min/max. -/
theorem safeRem_spec (values : ℕ → F) (l : List ℕ) :
    ∀ (acc : Vec4 × Vec4), acc.1.noNaN → acc.2.noNaN →
      (l.foldl (safeRemStep values) acc).1.noNaN ∧
      (l.foldl (safeRemStep values) acc).2.noNaN ∧
      vminE (l.foldl (safeRemStep values) acc).1
        = min (ginfList gSafeMin (l.map values)) (vminE acc.1) ∧
      vmaxE (l.foldl (safeRemStep values) acc).2
        = max (gsupList gSafeMax (l.map values)) (vmaxE acc.2) := by
  induction l with
  | nil =>
    intro acc h1 h2
    refine ⟨h1, h2, ?_, ?_⟩
    · rw [List.map_nil, show ginfList gSafeMin [] = ⊤ from rfl, min_eq_right le_top]
      rfl
    · rw [List.map_nil, show gsupList gSafeMax [] = ⊥ from rfl, max_eq_right bot_le]
      rfl
  | cons i l ih =>
    intro acc h1 h2
    obtain ⟨h10, h11, h12, h13⟩ := h1
    obtain ⟨h20, h21, h22, h23⟩ := h2
    have hstep1 : (safeRemStep values acc i).1
        = ⟨fromE (min (gSafeMin (values i)) (toE acc.1.x0)), acc.1.x1, acc.1.x2, acc.1.x3⟩ := by
      simp only [safeRemStep]
      rw [safeLaneMin_eq2 _ _ h10]
    have hstep2 : (safeRemStep values acc i).2
        = ⟨fromE (max (gSafeMax (values i)) (toE acc.2.x0)), acc.2.x1, acc.2.x2, acc.2.x3⟩ := by
      simp only [safeRemStep]
      rw [safeLaneMax_eq2 _ _ h20]
    obtain ⟨ha, hb, hc, hd⟩ := ih (safeRemStep values acc i)
      (by rw [hstep1]; exact ⟨fromE_ne_nan _, h11, h12, h13⟩)
      (by rw [hstep2]; exact ⟨fromE_ne_nan _, h21, h22, h23⟩)
    rw [List.foldl_cons]
    refine ⟨ha, hb, ?_, ?_⟩
    · rw [hc, hstep1, List.map_cons, ginf_cons]
      simp only [vminE, toE_fromE]
      simp [min_assoc, min_comm, min_left_comm]
    · rw [hd, hstep2, List.map_cons, gsup_cons]
      simp only [vmaxE, toE_fromE]
      simp [max_assoc, max_comm, max_left_comm]

set_option maxHeartbeats 1000000 in
/-- The unsafe remainder loop on NaN-free indices. -/
theorem unsafeRem_spec (values : ℕ → F) (l : List ℕ) : (∀ i ∈ l, values i ≠ F.nan) →
    ∀ (acc : Vec4 × Vec4), acc.1.noNaN → acc.2.noNaN →
      (l.foldl (unsafeRemStep values) acc).1.noNaN ∧
      (l.foldl (unsafeRemStep values) acc).2.noNaN ∧
      vminE (l.foldl (unsafeRemStep values) acc).1
        = min (ginfList toE (l.map values)) (vminE acc.1) ∧
      vmaxE (l.foldl (unsafeRemStep values) acc).2
        = max (gsupList toE (l.map values)) (vmaxE acc.2) := by
  induction l with
  | nil =>
    intro _ acc h1 h2
    refine ⟨h1, h2, ?_, ?_⟩
    · rw [List.map_nil, show ginfList toE [] = ⊤ from rfl, min_eq_right le_top]
      rfl
    · rw [List.map_nil, show gsupList toE [] = ⊥ from rfl, max_eq_right bot_le]
      rfl
  | cons i l ih =>
    intro hl acc h1 h2
    have hv : values i ≠ F.nan := hl i (List.mem_cons_self i l)
    have hl2 : ∀ j ∈ l, values j ≠ F.nan := fun j hj => hl j (List.mem_cons_of_mem i hj)
    obtain ⟨h10, h11, h12, h13⟩ := h1
    obtain ⟨h20, h21, h22, h23⟩ := h2
    have hstep1 : (unsafeRemStep values acc i).1
        = ⟨fromE (min (toE (values i)) (toE acc.1.x0)), acc.1.x1, acc.1.x2, acc.1.x3⟩ := by
      simp only [unsafeRemStep]
      rw [fmin1_eq h10 hv, min_comm]
    have hstep2 : (unsafeRemStep values acc i).2
        = ⟨fromE (max (toE (values i)) (toE acc.2.x0)), acc.2.x1, acc.2.x2, acc.2.x3⟩ := by
      simp only [unsafeRemStep]
      rw [fmax1_eq h20 hv, max_comm]
    obtain ⟨ha, hb, hc, hd⟩ := ih hl2 (unsafeRemStep values acc i)
      (by rw [hstep1]; exact ⟨fromE_ne_nan _, h11, h12, h13⟩)
      (by rw [hstep2]; exact ⟨fromE_ne_nan _, h21, h22, h23⟩)
    rw [List.foldl_cons]
    refine ⟨ha, hb, ?_, ?_⟩
    · rw [hc, hstep1, List.map_cons, ginf_cons]
      simp only [vminE, toE_fromE]
      simp [min_assoc, min_comm, min_left_comm]
    · rw [hd, hstep2, List.map_cons, gsup_cons]
      simp only [vmaxE, toE_fromE]
      simp [max_assoc, max_comm, max_left_comm]

set_option maxHeartbeats 1000000 in
/-- Invariant of the unsafe bulk loop (NaN-free data): after the seed and
`n` further chunks the lanes are NaN-free and reduce to the min/max over
elements `0..4(n+1)-1`. -/
theorem unsafeChunks_spec (values : ℕ → F) : ∀ n : ℕ,
    (∀ i, i < 4 * (n + 1) → values i ≠ F.nan) →
    (unsafeChunks values n).1.noNaN ∧ (unsafeChunks values n).2.noNaN ∧
    vminE (unsafeChunks values n).1 = ginfList toE ((List.range (4 * (n + 1))).map values) ∧
    vmaxE (unsafeChunks values n).2 = gsupList toE ((List.range (4 * (n + 1))).map values) := by
  intro n
  induction n with
  | zero =>
    intro hnn
    have h0 := hnn 0 (by norm_num)
    have h1 := hnn 1 (by norm_num)
    have h2 := hnn 2 (by norm_num)
    have h3 := hnn 3 (by norm_num)
    simp only [unsafeChunks, loadu]
    refine ⟨⟨h0, h1, h2, h3⟩, ⟨h0, h1, h2, h3⟩, ?_, ?_⟩
    · rw [show (4 * (0 + 1)) = 4 from rfl,
          show (List.range 4).map values
            = [values 0, values 1, values 2, values 3] from rfl, ginf_four]
      rfl
    · rw [show (4 * (0 + 1)) = 4 from rfl,
          show (List.range 4).map values
            = [values 0, values 1, values 2, values 3] from rfl, gsup_four]
      rfl
  | succ n ih =>
    intro hnn
    obtain ⟨⟨hm0, hm1, hm2, hm3⟩, ⟨hn0, hn1, hn2, hn3⟩, hminE, hmaxE⟩ :=
      ih (fun i hi => hnn i (lt_of_lt_of_le hi (by omega)))
    have ht0 : values (4 * (n + 1)) ≠ F.nan := hnn _ (by omega)
    have ht1 : values (4 * (n + 1) + 1) ≠ F.nan := hnn _ (by omega)
    have ht2 : values (4 * (n + 1) + 2) ≠ F.nan := hnn _ (by omega)
    have ht3 : values (4 * (n + 1) + 3) ≠ F.nan := hnn _ (by omega)
    simp only [unsafeChunks, min_ps, max_ps, loadu]
    rw [fmin1_eq ht0 hm0, fmin1_eq ht1 hm1, fmin1_eq ht2 hm2, fmin1_eq ht3 hm3,
        fmax1_eq ht0 hn0, fmax1_eq ht1 hn1, fmax1_eq ht2 hn2, fmax1_eq ht3 hn3]
    refine ⟨⟨fromE_ne_nan _, fromE_ne_nan _, fromE_ne_nan _, fromE_ne_nan _⟩,
            ⟨fromE_ne_nan _, fromE_ne_nan _, fromE_ne_nan _, fromE_ne_nan _⟩, ?_, ?_⟩
    · simp only [vminE, toE_fromE]
      rw [show 4 * (n + 1 + 1) = 4 * (n + 1) + 4 by ring, List.range_add,
          List.map_append, ginf_append, map_range_four, ginf_four, ← hminE]
      simp only [vminE]
      simp [min_assoc, min_comm, min_left_comm]
    · simp only [vmaxE, toE_fromE]
      rw [show 4 * (n + 1 + 1) = 4 * (n + 1) + 4 by ring, List.range_add,
          List.map_append, gsup_append, map_range_four, gsup_four, ← hmaxE]
      simp only [vmaxE]
      simp [max_assoc, max_comm, max_left_comm]

theorem visited_one (values : ℕ → F) (size : ℕ) :
    visited values size 1 = (List.range size).map values := by
  unfold visited
  simp

theorem notNaNPart_eq_self {l : List F} (h : ∀ v ∈ l, v ≠ F.nan) : notNaNPart l = l := by
  unfold notNaNPart
  refine List.filter_eq_self.mpr fun a ha => ?_
  cases ha2 : a with
  | nan => exact absurd ha2 (h a ha)
  | pinf => rfl
  | ninf => rfl
  | fin q => rfl

/-- The safe bulk vector path computes the min/max over exactly the finite
elements `values[0..size-1]` (for every `size`, including the remainder). -/
theorem sse2_vectorMinMaxSafe_spec (values : ℕ → F) (size : ℕ) :
    sse2_vectorMinMaxSafe values size = specSafePair ((List.range size).map values) := by
  obtain ⟨hc1, hc2, hcmin, hcmax⟩ := safeChunks_spec values (size / 4)
  rw [show 4 * (size / 4) = size / 4 * 4 from Nat.mul_comm 4 (size / 4)] at hcmin hcmax
  obtain ⟨hr1, hr2, hrmin, hrmax⟩ := safeRem_spec values
    (List.range' (size / 4 * 4) (size - size / 4 * 4)) (safeChunks values (size / 4)) hc1 hc2
  have hsplit : (List.range size).map values
      = (List.range (size / 4 * 4)).map values
        ++ (List.range' (size / 4 * 4) (size - size / 4 * 4)).map values := by
    rw [List.range'_eq_map_range]
    conv_lhs => rw [show size = size / 4 * 4 + (size - size / 4 * 4) from by
      have := Nat.div_mul_le_self size 4
      omega]
    rw [List.range_add, List.map_append]
  rw [show sse2_vectorMinMaxSafe values size
      = sse2_reduceMinMax
          ((List.range' (size / 4 * 4) (size - size / 4 * 4)).foldl (safeRemStep values)
            (safeChunks values (size / 4))).1
          ((List.range' (size / 4 * 4) (size - size / 4 * 4)).foldl (safeRemStep values)
            (safeChunks values (size / 4))).2 from rfl,
      sse2_reduceMinMax_eq _ _ hr1 hr2, hrmin, hrmax, hcmin, hcmax]
  simp only [specSafePair, listInfE_eq, listSupE_eq]
  rw [← ginf_gSafeMin, ← gsup_gSafeMax, hsplit, ginf_append, gsup_append,
      min_comm (ginfList gSafeMin ((List.range (size / 4 * 4)).map values)),
      max_comm (gsupList gSafeMax ((List.range (size / 4 * 4)).map values))]

/-- The unsafe bulk vector path computes the min/max over
`values[0..size-1]` on NaN-free data, given its precondition `size ≥ 4`. -/
theorem sse2_vectorMinMax_spec (values : ℕ → F) (size : ℕ) (h4 : 4 ≤ size)
    (hnn : ∀ i, i < size → values i ≠ F.nan) :
    sse2_vectorMinMax values size = specUnsafePair ((List.range size).map values) := by
  have hm1 : 1 ≤ size / 4 := (Nat.one_le_div_iff (by norm_num)).mpr h4
  have hle : size / 4 * 4 ≤ size := Nat.div_mul_le_self size 4
  obtain ⟨hc1, hc2, hcmin, hcmax⟩ := unsafeChunks_spec values (size / 4 - 1)
    (fun i hi => hnn i (by omega))
  rw [show 4 * (size / 4 - 1 + 1) = size / 4 * 4 from by omega] at hcmin hcmax
  obtain ⟨hr1, hr2, hrmin, hrmax⟩ := unsafeRem_spec values
    (List.range' (size / 4 * 4) (size - size / 4 * 4))
    (fun i hi => hnn i (by
      have h := List.mem_range'_1.mp hi
      omega))
    (unsafeChunks values (size / 4 - 1)) hc1 hc2
  have hsplit : (List.range size).map values
      = (List.range (size / 4 * 4)).map values
        ++ (List.range' (size / 4 * 4) (size - size / 4 * 4)).map values := by
    rw [List.range'_eq_map_range]
    conv_lhs => rw [show size = size / 4 * 4 + (size - size / 4 * 4) from by omega]
    rw [List.range_add, List.map_append]
  have hall : notNaNPart ((List.range size).map values) = (List.range size).map values := by
    refine notNaNPart_eq_self fun v hv => ?_
    obtain ⟨i, hi, rfl⟩ := List.mem_map.mp hv
    exact hnn i (List.mem_range.mp hi)
  rw [show sse2_vectorMinMax values size
      = sse2_reduceMinMax
          ((List.range' (size / 4 * 4) (size - size / 4 * 4)).foldl (unsafeRemStep values)
            (unsafeChunks values (size / 4 - 1))).1
          ((List.range' (size / 4 * 4) (size - size / 4 * 4)).foldl (unsafeRemStep values)
            (unsafeChunks values (size / 4 - 1))).2 from rfl,
      sse2_reduceMinMax_eq _ _ hr1 hr2, hrmin, hrmax, hcmin, hcmax]
  simp only [specUnsafePair, listInfE_eq, listSupE_eq, hall]
  rw [hsplit, ginf_append, gsup_append,
      min_comm (ginfList toE ((List.range (size / 4 * 4)).map values)),
      max_comm (gsupList toE ((List.range (size / 4 * 4)).map values))]

/-- Inversion of the dispatch: the bulk path is reached only with no mode
override (`mode ∉ {1,2,3}`), unit stride and `size > 8`. -/
theorem dispatchPath_bulk {mode : ℤ} {size stride : ℕ}
    (h : dispatchPath mode size stride = ScanPath.bulk) :
    mode ≠ 1 ∧ mode ≠ 2 ∧ mode ≠ 3 ∧ stride = 1 ∧ 8 < size := by
  unfold dispatchPath at h
  by_cases h1 : mode = 2 ∨ mode = 3
  · rw [if_pos h1] at h
    exact ScanPath.noConfusion h
  · rw [if_neg h1] at h
    by_cases h2 : mode = 1 ∨ stride ≠ 1 ∨ size ≤ 8
    · rw [if_pos h2] at h
      exact ScanPath.noConfusion h
    · push_neg at h1 h2
      exact ⟨h2.1, h1.1, h1.2, h2.2.1, by omega⟩

/-- Full characterisation of `scanArray`: for every mode, buffer, size and
stride it returns the min/max over exactly the finite visited elements. -/
theorem scanArray_spec (mode : ℤ) (values : ℕ → F) (size stride : ℕ) :
    scanArray mode values size stride = specSafePair (visited values size stride) := by
  cases hpath : dispatchPath mode size stride with
  | scalar =>
    rw [show scanArray mode values size stride = cpu_stridedMinMaxSafe values size stride from by
      unfold scanArray
      rw [hpath]]
    exact cpu_stridedMinMaxSafe_spec values size stride
  | strided =>
    rw [show scanArray mode values size stride = sse2_stridedMinMaxSafe values size stride from by
      unfold scanArray
      rw [hpath]]
    exact sse2_stridedMinMaxSafe_spec values size stride
  | bulk =>
    obtain ⟨-, -, -, hstride, -⟩ := dispatchPath_bulk hpath
    subst hstride
    rw [show scanArray mode values size 1 = sse2_vectorMinMaxSafe values size from by
      unfold scanArray
      rw [hpath]]
    rw [visited_one]
    exact sse2_vectorMinMaxSafe_spec values size

/-- Full characterisation of `unsafeScanArray` on inputs whose visited
elements contain no NaN: min/max over all visited elements. -/
theorem unsafeScanArray_spec (mode : ℤ) (values : ℕ → F) (size stride : ℕ)
    (hnn : ∀ i, i < size → values (i * stride) ≠ F.nan) :
    unsafeScanArray mode values size stride = specUnsafePair (visited values size stride) := by
  have hvis : ∀ v ∈ visited values size stride, v ≠ F.nan := by
    intro v hv
    obtain ⟨i, hi, rfl⟩ := List.mem_map.mp hv
    exact hnn i (List.mem_range.mp hi)
  cases hpath : dispatchPath mode size stride with
  | scalar =>
    rw [show unsafeScanArray mode values size stride = cpu_stridedMinMax values size stride from by
      unfold unsafeScanArray
      rw [hpath]]
    exact cpu_stridedMinMax_spec values size stride
  | strided =>
    rw [show unsafeScanArray mode values size stride = sse2_stridedMinMax values size stride from by
      unfold unsafeScanArray
      rw [hpath]]
    exact sse2_stridedMinMax_spec values size stride hvis
  | bulk =>
    obtain ⟨-, -, -, hstride, hsize⟩ := dispatchPath_bulk hpath
    subst hstride
    rw [show unsafeScanArray mode values size 1 = sse2_vectorMinMax values size from by
      unfold unsafeScanArray
      rw [hpath]]
    rw [visited_one]
    refine sse2_vectorMinMax_spec values size (by omega) fun i hi => ?_
    have h := hnn i hi
    rwa [mul_one] at h

/-! ## The bit-level finiteness test (`cpu_isFinite`)

The source type-puns the float to a 32-bit unsigned integer via `memcpy`,
masks off the sign bit and compares against the all-ones-exponent pattern.
Here `w` is that punned 32-bit pattern, and `decodeBits` is the IEEE-754
single-precision interpretation of the pattern. -/

/-- `cpu_isFinite` on the punned bits:
`(punnedVal & 0x7FFFFFFF) < 0x7F800000`. -/
def cpu_isFinite (w : ℕ) : Bool := decide ((w &&& 0x7FFFFFFF) < 0x7F800000)

/-- Sign bit (bit 31) of a 32-bit pattern. -/
def signBit (w : ℕ) : ℕ := w / 2 ^ 31 % 2

/-- Exponent field (bits 23..30) of a 32-bit pattern. -/
def expBits (w : ℕ) : ℕ := w / 2 ^ 23 % 2 ^ 8

/-- Fraction field (bits 0..22) of a 32-bit pattern. -/
def fracBits (w : ℕ) : ℕ := w % 2 ^ 23

/-- IEEE-754 single-precision interpretation of a 32-bit pattern: an
all-ones exponent encodes an infinity (zero fraction) or a NaN; otherwise
the pattern encodes the finite value
`(-1)^sign * 1.frac * 2^(exp-127)` (normal) or
`(-1)^sign * frac * 2^-149` (subnormal). -/
def decodeBits (w : ℕ) : F :=
  if expBits w = 255 then
    if fracBits w = 0 then (if signBit w = 0 then F.pinf else F.ninf) else F.nan
  else
    F.fin ((if signBit w = 0 then (1 : ℚ) else -1) *
      (if expBits w = 0 then (fracBits w : ℚ) * (2 : ℚ) ^ (-(149 : ℤ))
       else ((2 ^ 23 + fracBits w : ℕ) : ℚ) * (2 : ℚ) ^ ((expBits w : ℤ) - 150)))

theorem cpu_isFinite_eq_mod (w : ℕ) :
    cpu_isFinite w = decide (w % 2 ^ 31 < 0x7F800000) := by
  unfold cpu_isFinite
  rw [show (0x7FFFFFFF : ℕ) = 2 ^ 31 - 1 from by norm_num,
      Nat.and_pow_two_sub_one_eq_mod w 31]

theorem cpu_isFinite_iff (w : ℕ) (hw : w < 2 ^ 32) :
    cpu_isFinite w = true ↔
      ¬(decodeBits w = F.nan ∨ decodeBits w = F.pinf ∨ decodeBits w = F.ninf) := by
  rw [cpu_isFinite_eq_mod, decide_eq_true_eq]
  have hw' : w < 4294967296 := by
    have h2 : (2 : ℕ) ^ 32 = 4294967296 := by norm_num
    rw [h2] at hw
    exact hw
  by_cases he : expBits w = 255
  · have he' : w / 8388608 % 256 = 255 := by
      unfold expBits at he
      norm_num at he
      exact he
    constructor
    · intro hlt
      exfalso
      rw [show (2 : ℕ) ^ 31 = 2147483648 from by norm_num] at hlt
      rw [show (0x7F800000 : ℕ) = 2139095040 from by norm_num] at hlt
      omega
    · intro hne
      exfalso
      apply hne
      unfold decodeBits
      rw [if_pos he]
      by_cases hf : fracBits w = 0
      · rw [if_pos hf]
        by_cases hs : signBit w = 0
        · rw [if_pos hs]
          exact Or.inr (Or.inl rfl)
        · rw [if_neg hs]
          exact Or.inr (Or.inr rfl)
      · rw [if_neg hf]
        exact Or.inl rfl
  · constructor
    · intro _ hcon
      unfold decodeBits at hcon
      rw [if_neg he] at hcon
      rcases hcon with h | h | h <;> exact F.noConfusion h
    · intro _
      have he' : w / 8388608 % 256 ≠ 255 := by
        unfold expBits at he
        norm_num at he
        exact he
      rw [show (2 : ℕ) ^ 31 = 2147483648 from by norm_num,
          show (0x7F800000 : ℕ) = 2139095040 from by norm_num]
      omega

/-! ## Support lemmas for the claims -/

theorem fle_fromE (a b : E) : fle (fromE a) (fromE b) = true ↔ a ≤ b := by
  rw [fle_iff (fromE_ne_nan a) (fromE_ne_nan b), toE_fromE, toE_fromE]

theorem mem_visited {values : ℕ → F} {size stride i : ℕ} (hi : i < size) :
    values (i * stride) ∈ visited values size stride :=
  List.mem_map_of_mem _ (List.mem_range.mpr hi)

theorem unsafeChunks_congr (v1 v2 : ℕ → F) : ∀ n : ℕ,
    (∀ i, i < 4 * (n + 1) → v1 i = v2 i) → unsafeChunks v1 n = unsafeChunks v2 n := by
  intro n
  induction n with
  | zero =>
    intro h
    simp only [unsafeChunks, loadu]
    rw [h 0 (by omega), h 1 (by omega), h 2 (by omega), h 3 (by omega)]
  | succ n ih =>
    intro h
    simp only [unsafeChunks, loadu]
    rw [ih (fun i hi => h i (by omega)), h (4 * (n + 1)) (by omega),
        h (4 * (n + 1) + 1) (by omega), h (4 * (n + 1) + 2) (by omega),
        h (4 * (n + 1) + 3) (by omega)]

theorem sse2_vectorMinMax_congr (v1 v2 : ℕ → F) (size : ℕ) (h4 : 4 ≤ size)
    (h : ∀ i, i < size → v1 i = v2 i) :
    sse2_vectorMinMax v1 size = sse2_vectorMinMax v2 size := by
  have hm1 : 1 ≤ size / 4 := (Nat.one_le_div_iff (by norm_num)).mpr h4
  have hle : size / 4 * 4 ≤ size := Nat.div_mul_le_self size 4
  have hchunks : unsafeChunks v1 (size / 4 - 1) = unsafeChunks v2 (size / 4 - 1) :=
    unsafeChunks_congr v1 v2 (size / 4 - 1) (fun i hi => h i (by omega))
  have hrem : ∀ acc : Vec4 × Vec4,
      (List.range' (size / 4 * 4) (size - size / 4 * 4)).foldl (unsafeRemStep v1) acc
        = (List.range' (size / 4 * 4) (size - size / 4 * 4)).foldl (unsafeRemStep v2) acc := by
    intro acc
    refine List.foldl_ext _ _ acc fun a i hi => ?_
    have hi2 := List.mem_range'_1.mp hi
    unfold unsafeRemStep
    rw [h i (by omega)]
  rw [show sse2_vectorMinMax v1 size
      = sse2_reduceMinMax
          ((List.range' (size / 4 * 4) (size - size / 4 * 4)).foldl (unsafeRemStep v1)
            (unsafeChunks v1 (size / 4 - 1))).1
          ((List.range' (size / 4 * 4) (size - size / 4 * 4)).foldl (unsafeRemStep v1)
            (unsafeChunks v1 (size / 4 - 1))).2 from rfl,
      show sse2_vectorMinMax v2 size
      = sse2_reduceMinMax
          ((List.range' (size / 4 * 4) (size - size / 4 * 4)).foldl (unsafeRemStep v2)
            (unsafeChunks v2 (size / 4 - 1))).1
          ((List.range' (size / 4 * 4) (size - size / 4 * 4)).foldl (unsafeRemStep v2)
            (unsafeChunks v2 (size / 4 - 1))).2 from rfl,
      hchunks, hrem]

/-- A small concrete buffer: element `i` of the list, `0.0` out of range. -/
def bufOf (l : List F) : ℕ → F := fun i => l.getD i (F.fin 0)

/-! ## The claims -/

/-- C1: for every buffer, stride, and dispatch mode 0-3, `scanArray` with
`size > 0` returns the min and max of exactly the finite elements among
positions `0, stride, …, (size-1)*stride` (NaN and the infinities are
excluded from both accumulators), and the sentinel pair
`(+Infinity, -Infinity)` when no visited element is finite —
`specSafePair` is by definition the min/max over exactly the finite
visited elements, yielding the sentinel pair on an empty filter. -/
theorem claim_C1_scanArray_safe_minmax (mode : ℤ) (values : ℕ → F) (size stride : ℕ)
    (_hmode : mode = 0 ∨ mode = 1 ∨ mode = 2 ∨ mode = 3) (_hsize : 0 < size) :
    scanArray mode values size stride = specSafePair (visited values size stride) :=
  scanArray_spec mode values size stride

theorem claim_C1_witness :
    scanArray 2 (bufOf [F.nan, F.fin 1, F.fin 2, F.ninf, F.pinf, F.fin 5]) 6 1
      = specSafePair (visited (bufOf [F.nan, F.fin 1, F.fin 2, F.ninf, F.pinf, F.fin 5]) 6 1) :=
  claim_C1_scanArray_safe_minmax 2 _ 6 1 (Or.inr (Or.inr (Or.inl rfl))) (by decide)

/-- C2 counterexample: on the buffer `[1.0, NaN, 5.0]`, forcing the
strided vector path (mode 1) and the scalar path (mode 2) makes
`unsafeScanArray` return different results ((5,5) versus (1,5)): a NaN
poisons the SSE2 single-lane accumulator (`_mm_min_ss` returns its second
operand on NaN) and is then replaced by the next element, whereas the
scalar comparisons simply skip the NaN.  The modes are therefore not
result-invariant on NaN-containing inputs. -/
theorem claim_C2_counterexample :
    unsafeScanArray 1 (bufOf [F.fin 1, F.nan, F.fin 5]) 3 1
      ≠ unsafeScanArray 2 (bufOf [F.fin 1, F.nan, F.fin 5]) 3 1 := by decide

/-- C2 amended: `scanArray` returns identical results under every dispatch
mode on every input; `unsafeScanArray` returns identical results under
every dispatch mode provided no visited element is NaN. -/
theorem claim_C2_amended (m1 m2 : ℤ) (values : ℕ → F) (size stride : ℕ) :
    scanArray m1 values size stride = scanArray m2 values size stride ∧
    ((∀ i, i < size → values (i * stride) ≠ F.nan) →
      unsafeScanArray m1 values size stride = unsafeScanArray m2 values size stride) := by
  refine ⟨?_, fun hnn => ?_⟩
  · rw [scanArray_spec, scanArray_spec]
  · rw [unsafeScanArray_spec m1 values size stride hnn,
        unsafeScanArray_spec m2 values size stride hnn]

theorem claim_C2_witness :
    unsafeScanArray 0 (bufOf [F.fin 3, F.fin 1, F.fin 2]) 3 1
      = unsafeScanArray 2 (bufOf [F.fin 3, F.fin 1, F.fin 2]) 3 1 :=
  (claim_C2_amended 0 2 (bufOf [F.fin 3, F.fin 1, F.fin 2]) 3 1).2 (by decide)

/-- C3: with `size = 0`, both entry points return exactly the sentinel
pair `(+Infinity, -Infinity)`, for every buffer, stride and mode. -/
theorem claim_C3_size_zero_sentinel (mode : ℤ) (values : ℕ → F) (stride : ℕ) :
    unsafeScanArray mode values 0 stride = (F.pinf, F.ninf) ∧
    scanArray mode values 0 stride = (F.pinf, F.ninf) := by
  constructor
  · rw [unsafeScanArray_spec mode values 0 stride (fun i hi => absurd hi (Nat.not_lt_zero i))]
    rfl
  · rw [scanArray_spec]
    rfl

/-- C4 counterexample: on the one-element buffer `[NaN]` (scalar mode 2),
a qualifying element per the claim exists for the unsafe variant ("any
visited element"), yet the result is the sentinel pair
`(+Infinity, -Infinity)` and `min ≤ max` fails. -/
theorem claim_C4_counterexample :
    ¬ (0 < 1 → fle (unsafeScanArray 2 (bufOf [F.nan]) 1 1).1
        (unsafeScanArray 2 (bufOf [F.nan]) 1 1).2 = true) := by decide

/-- C4 amended: for `scanArray`, `min ≤ max` holds whenever some finite
visited element exists, and the result is exactly the sentinel pair when
none does; for `unsafeScanArray`, on NaN-free input, `min ≤ max` holds
whenever `size > 0` and the result is exactly the sentinel pair when
`size = 0`. -/
theorem claim_C4_amended (mode : ℤ) (values : ℕ → F) (size stride : ℕ) :
    ((∃ i, i < size ∧ (values (i * stride)).isFinite = true) →
        fle (scanArray mode values size stride).1 (scanArray mode values size stride).2 = true) ∧
    ((∀ i, i < size → (values (i * stride)).isFinite = false) →
        scanArray mode values size stride = (F.pinf, F.ninf)) ∧
    ((∀ i, i < size → values (i * stride) ≠ F.nan) → 0 < size →
        fle (unsafeScanArray mode values size stride).1
          (unsafeScanArray mode values size stride).2 = true) ∧
    unsafeScanArray mode values 0 stride = (F.pinf, F.ninf) := by
  refine ⟨?_, ?_, ?_, ?_⟩
  · rintro ⟨i, hi, hfin⟩
    rw [scanArray_spec]
    have hv : values (i * stride) ∈ finitePart (visited values size stride) :=
      List.mem_filter.mpr ⟨mem_visited hi, hfin⟩
    show fle (fromE (listInfE (finitePart (visited values size stride))))
        (fromE (listSupE (finitePart (visited values size stride)))) = true
    rw [fle_fromE]
    exact le_trans (ginf_le_of_mem toE hv) (le_gsup_of_mem toE hv)
  · intro hall
    rw [scanArray_spec]
    have hnil : finitePart (visited values size stride) = [] := by
      refine List.filter_eq_nil_iff.mpr fun v hv => ?_
      obtain ⟨i, hi, rfl⟩ := List.mem_map.mp hv
      rw [hall i (List.mem_range.mp hi)]
      exact Bool.false_ne_true
    unfold specSafePair
    rw [hnil]
    rfl
  · intro hnn hpos
    rw [unsafeScanArray_spec mode values size stride hnn]
    have hmem : values (0 * stride) ∈ notNaNPart (visited values size stride) := by
      refine List.mem_filter.mpr ⟨mem_visited hpos, ?_⟩
      cases hx : values (0 * stride) with
      | nan => exact absurd hx (hnn 0 hpos)
      | pinf => rfl
      | ninf => rfl
      | fin q => rfl
    show fle (fromE (listInfE (notNaNPart (visited values size stride))))
        (fromE (listSupE (notNaNPart (visited values size stride)))) = true
    rw [fle_fromE]
    exact le_trans (ginf_le_of_mem toE hmem) (le_gsup_of_mem toE hmem)
  · rw [unsafeScanArray_spec mode values 0 stride (fun i hi => absurd hi (Nat.not_lt_zero i))]
    rfl

theorem claim_C4_witness :
    fle (scanArray 0 (bufOf [F.fin 3, F.fin 1, F.fin 2]) 3 1).1
      (scanArray 0 (bufOf [F.fin 3, F.fin 1, F.fin 2]) 3 1).2 = true :=
  (claim_C4_amended 0 (bufOf [F.fin 3, F.fin 1, F.fin 2]) 3 1).1 ⟨1, by decide, by decide⟩

/-- C5: the finiteness test is pure and, for every 32-bit pattern `w`,
returns true iff the encoded value is neither NaN nor an infinity; and it
decides this exactly by masking off the sign bit and comparing the result
with the all-ones-exponent pattern `0x7F800000`. -/
theorem claim_C5_isFinite_bits (w : ℕ) (hw : w < 2 ^ 32) :
    (cpu_isFinite w = true ↔
      ¬(decodeBits w = F.nan ∨ decodeBits w = F.pinf ∨ decodeBits w = F.ninf)) ∧
    cpu_isFinite w = decide ((w &&& 0x7FFFFFFF) < 0x7F800000) :=
  ⟨cpu_isFinite_iff w hw, rfl⟩

theorem claim_C5_witness :
    cpu_isFinite 0x7FC00000 = true ↔
      ¬(decodeBits 0x7FC00000 = F.nan ∨ decodeBits 0x7FC00000 = F.pinf ∨
          decodeBits 0x7FC00000 = F.ninf) :=
  (claim_C5_isFinite_bits 0x7FC00000 (by norm_num)).1

/-- C6: on non-empty input whose visited elements are all finite, and for
every dispatch mode 0-3, `scanArray` and `unsafeScanArray` return exactly
the same pair. -/
theorem claim_C6_safe_unsafe_agree (mode : ℤ) (values : ℕ → F) (size stride : ℕ)
    (_hmode : mode = 0 ∨ mode = 1 ∨ mode = 2 ∨ mode = 3) (_hsize : 0 < size)
    (hfin : ∀ i, i < size → (values (i * stride)).isFinite = true) :
    scanArray mode values size stride = unsafeScanArray mode values size stride := by
  rw [scanArray_spec, unsafeScanArray_spec mode values size stride
      (fun i hi => isFinite_ne_nan (hfin i hi))]
  have h1 : finitePart (visited values size stride) = visited values size stride := by
    refine List.filter_eq_self.mpr fun v hv => ?_
    obtain ⟨i, hi, rfl⟩ := List.mem_map.mp hv
    exact hfin i (List.mem_range.mp hi)
  have h2 : notNaNPart (visited values size stride) = visited values size stride := by
    refine notNaNPart_eq_self fun v hv => ?_
    obtain ⟨i, hi, rfl⟩ := List.mem_map.mp hv
    exact isFinite_ne_nan (hfin i (List.mem_range.mp hi))
  unfold specSafePair specUnsafePair
  rw [h1, h2]

theorem claim_C6_witness :
    scanArray 1 (bufOf [F.fin 3, F.fin 1, F.fin 2]) 3 1
      = unsafeScanArray 1 (bufOf [F.fin 3, F.fin 1, F.fin 2]) 3 1 :=
  claim_C6_safe_unsafe_agree 1 _ 3 1 (Or.inr (Or.inl rfl)) (by decide) (by decide)

/-- C7: the scalar unsafe reduction visits the strided elements with
accumulators seeded at `(+Infinity, -Infinity)` under plain comparisons:
its result is the min/max over exactly the non-NaN visited elements (the
infinities participate, NaN is skipped); and one loop iteration on a NaN
element leaves the accumulator pair unchanged, since both comparisons
against NaN are false. -/
theorem claim_C7_scalar_unsafe (values : ℕ → F) (size stride : ℕ) :
    cpu_stridedMinMax values size stride = specUnsafePair (visited values size stride) ∧
    ∀ acc : F × F,
      (if flt F.nan acc.1 then F.nan else acc.1,
       if fgt F.nan acc.2 then F.nan else acc.2) = acc := by
  refine ⟨cpu_stridedMinMax_spec values size stride, fun acc => ?_⟩
  simp [flt_nan_left, fgt, flt_nan_right]

/-- C8: only the elements at offsets `0, stride, …, (size-1)*stride`
influence either entry point: buffers agreeing at those offsets give the
same result under every dispatch mode 0-3. -/
theorem claim_C8_only_visited_matters (mode : ℤ) (v1 v2 : ℕ → F) (size stride : ℕ)
    (_hmode : mode = 0 ∨ mode = 1 ∨ mode = 2 ∨ mode = 3)
    (hagree : ∀ i, i < size → v1 (i * stride) = v2 (i * stride)) :
    scanArray mode v1 size stride = scanArray mode v2 size stride ∧
    unsafeScanArray mode v1 size stride = unsafeScanArray mode v2 size stride := by
  have hvis : visited v1 size stride = visited v2 size stride := by
    unfold visited
    exact List.map_congr_left fun i hi => hagree i (List.mem_range.mp hi)
  refine ⟨?_, ?_⟩
  · rw [scanArray_spec, scanArray_spec, hvis]
  · cases hpath : dispatchPath mode size stride with
    | scalar =>
      rw [show unsafeScanArray mode v1 size stride = cpu_stridedMinMax v1 size stride from by
            unfold unsafeScanArray
            rw [hpath],
          show unsafeScanArray mode v2 size stride = cpu_stridedMinMax v2 size stride from by
            unfold unsafeScanArray
            rw [hpath]]
      unfold cpu_stridedMinMax
      rw [hvis]
    | strided =>
      rw [show unsafeScanArray mode v1 size stride = sse2_stridedMinMax v1 size stride from by
            unfold unsafeScanArray
            rw [hpath],
          show unsafeScanArray mode v2 size stride = sse2_stridedMinMax v2 size stride from by
            unfold unsafeScanArray
            rw [hpath]]
      unfold sse2_stridedMinMax
      rw [hvis]
    | bulk =>
      obtain ⟨-, -, -, hstride, hsize⟩ := dispatchPath_bulk hpath
      subst hstride
      rw [show unsafeScanArray mode v1 size 1 = sse2_vectorMinMax v1 size from by
            unfold unsafeScanArray
            rw [hpath],
          show unsafeScanArray mode v2 size 1 = sse2_vectorMinMax v2 size from by
            unfold unsafeScanArray
            rw [hpath]]
      refine sse2_vectorMinMax_congr v1 v2 size (by omega) fun i hi => ?_
      have h := hagree i hi
      rwa [mul_one] at h

theorem claim_C8_witness :
    scanArray 0 (bufOf [F.fin 1, F.fin 9, F.fin 2, F.fin 9, F.fin 3, F.fin 9]) 3 2
      = scanArray 0 (bufOf [F.fin 1, F.fin 0, F.fin 2, F.fin 0, F.fin 3, F.fin 0]) 3 2 :=
  (claim_C8_only_visited_matters 0 _ _ 3 2 (Or.inl rfl) (by decide)).1

/-- C9: the dispatch reaches the bulk vector path only with no forcing
override (`mode ∉ {1,2,3}`), unit stride and `size > 8`; hence its
precondition `size ≥ 4` holds and the initial 4-element load touches only
offsets inside the visited range `[0, size)`. -/
theorem claim_C9_bulk_dispatch_guard (mode : ℤ) (size stride : ℕ)
    (h : dispatchPath mode size stride = ScanPath.bulk) :
    ¬(mode = 1 ∨ mode = 2 ∨ mode = 3) ∧ stride = 1 ∧ 8 < size ∧ 4 ≤ size ∧
      ∀ j, j < 4 → j < size := by
  obtain ⟨h1, h2, h3, h4, h5⟩ := dispatchPath_bulk h
  refine ⟨?_, h4, h5, by omega, fun j hj => by omega⟩
  rintro (hc | hc | hc)
  · exact h1 hc
  · exact h2 hc
  · exact h3 hc

theorem claim_C9_witness : (1 : ℕ) = 1 ∧ 8 < 9 ∧ 4 ≤ 9 := by
  have h := claim_C9_bulk_dispatch_guard 0 9 1 (by decide)
  exact ⟨h.2.1, h.2.2.1, h.2.2.2.1⟩

/-- C10: neither component of the pair returned by `scanArray` is ever
NaN, for every buffer, size, stride and mode: non-finite candidates are
masked out before every combine and the accumulators are seeded at
`(+Infinity, -Infinity)`. -/
theorem claim_C10_safe_never_nan (mode : ℤ) (values : ℕ → F) (size stride : ℕ) :
    (scanArray mode values size stride).1.isNaN = false ∧
    (scanArray mode values size stride).2.isNaN = false := by
  rw [scanArray_spec]
  exact ⟨fromE_not_isNaN _, fromE_not_isNaN _⟩
